import Mathlib

/-!
Verification of the rational-number kernel (`src/symengine/rational.cpp`) and the
generated decision-tree matcher (`src/unnamed/part_000`) of this repository.

The C++ code is shallowly embedded: arbitrary-precision integers (`integer_class`)
become `Int`, fractions (`rational_class`) become pairs of `Int`, fallible
functions that `throw` become `Except String`, and the GMP primitives used at the
library boundary (`canonicalize`, `mpz_root`, `mpz_perfect_power_p`,
`mpz_fdiv_qr`) are given their documented mathematical meaning as executable
Lean functions.
-/

namespace SE

/-- The runtime variants of `Number` that appear in `rational.cpp`:
`Integer` wraps an integer, `Rational` wraps a fraction `num/den`, and
`imagTimes c` models a symengine `Complex(0, c)`, i.e. a numeric coefficient
multiplied by the imaginary unit (produced by `imulnum(coef, I)`). -/
inductive Number where
  | integerN : Int → Number
  | rationalN : Int → Int → Number
  | imagTimes : Number → Number
deriving DecidableEq

/-- GMP `mpq` canonicalization as invoked by `canonicalize(q)` in
`Rational::from_two_ints`: divide numerator and denominator by their gcd and
make the denominator positive. -/
def canonicalize (p : Int × Int) : Int × Int :=
  if p.2 / (Int.gcd p.1 p.2 : Int) < 0 then
    (-(p.1 / (Int.gcd p.1 p.2 : Int)), -(p.2 / (Int.gcd p.1 p.2 : Int)))
  else
    (p.1 / (Int.gcd p.1 p.2 : Int), p.2 / (Int.gcd p.1 p.2 : Int))

/-- `Rational::from_mpq` (rational.cpp lines 25-33): if the denominator of the
given fraction is 1 return an `Integer`, otherwise wrap the fraction, unchanged,
in a `Rational`. -/
def from_mpq (p : Int × Int) : Number :=
  if p.2 = 1 then Number.integerN p.1 else Number.rationalN p.1 p.2

/-- `Rational::from_two_ints` (rational.cpp lines 35-60): reject a zero
denominator, canonicalize the fraction, and delegate to `from_mpq`. -/
def from_two_ints (n d : Int) : Except String Number :=
  if d = 0 then Except.error "Rational: Division by zero."
  else Except.ok (from_mpq (canonicalize (n, d)))

/-- The canonical-form predicate of `Rational::is_canonical` on a raw fraction:
positive denominator, lowest terms, and not integral. -/
def isCanonicalPair (n d : Int) : Prop :=
  0 < d ∧ Int.gcd n d = 1 ∧ d ≠ 1

/-- Exact division distributes across a product: if `g` divides both `n` and
`d` then `(n / g) * d = n * (d / g)`. -/
theorem ediv_cross (n d g : Int) (hgn : g ∣ n) (hgd : g ∣ d) :
    n / g * d = n * (d / g) := by
  obtain ⟨a, ha⟩ := hgn
  obtain ⟨b, hb⟩ := hgd
  by_cases hg0 : g = 0
  · subst hg0
    simp [ha, hb]
  · subst ha
    subst hb
    rw [Int.mul_ediv_cancel_left a hg0, Int.mul_ediv_cancel_left b hg0]
    ring

theorem canonicalize_den_ne_zero (n d : Int) (hd : d ≠ 0) :
    (canonicalize (n, d)).2 ≠ 0 := by
  have hg : (Int.gcd n d : Int) ∣ d := Int.gcd_dvd_right
  have hq : d / (Int.gcd n d : Int) ≠ 0 := by
    intro hcontra
    exact hd (by rw [← Int.ediv_mul_cancel hg, hcontra, zero_mul])
  by_cases hneg : d / (Int.gcd n d : Int) < 0 <;>
    simp [canonicalize, hneg, hq]

theorem canonicalize_den_pos (n d : Int) (hd : d ≠ 0) :
    0 < (canonicalize (n, d)).2 := by
  have h := canonicalize_den_ne_zero n d hd
  by_cases hneg : d / (Int.gcd n d : Int) < 0
  · simp only [canonicalize, if_pos hneg]
    omega
  · simp only [canonicalize, if_pos, if_neg hneg] at h ⊢
    omega

theorem canonicalize_gcd_one (n d : Int) (hd : d ≠ 0) :
    Int.gcd (canonicalize (n, d)).1 (canonicalize (n, d)).2 = 1 := by
  have hgpos : 0 < Int.gcd n d := Int.gcd_pos_of_ne_zero_right n hd
  have hbase : Int.gcd (n / (Int.gcd n d : Int)) (d / (Int.gcd n d : Int)) = 1 :=
    Int.gcd_div_gcd_div_gcd hgpos
  by_cases hneg : d / (Int.gcd n d : Int) < 0
  · simp only [canonicalize, if_pos hneg]
    simpa [Int.gcd] using hbase
  · simp only [canonicalize, if_neg hneg]
    exact hbase

/-- The canonicalized pair represents the same fraction: cross-multiplication. -/
theorem canonicalize_cross (n d : Int) :
    (canonicalize (n, d)).1 * d = n * (canonicalize (n, d)).2 := by
  have key : n / (Int.gcd n d : Int) * d = n * (d / (Int.gcd n d : Int)) :=
    ediv_cross n d _ Int.gcd_dvd_left Int.gcd_dvd_right
  by_cases hneg : d / (Int.gcd n d : Int) < 0
  · simp only [canonicalize, if_pos hneg]
    rw [neg_mul, key, mul_neg]
  · simp only [canonicalize, if_neg hneg]
    exact key

theorem canonicalize_of_canonical (n d : Int) (hpos : 0 < d) (hg : Int.gcd n d = 1) :
    canonicalize (n, d) = (n, d) := by
  have h1 : (Int.gcd n d : Int) = 1 := by rw [hg]; rfl
  simp only [canonicalize, h1, Int.ediv_one]
  rw [if_neg (by omega)]

/-- Claim C1 — `from_two_ints(n, d)` with `d ≠ 0` produces a number satisfying
the canonical-form invariants: the canonicalized fraction has positive
denominator and coprime parts, the result is the `Integer` variant exactly when
the reduced denominator is 1 (and otherwise the `Rational` variant holding that
canonical fraction), and canonicalization is idempotent. -/
theorem C1_from_two_ints_canonical (n d : Int) (hd : d ≠ 0) :
    0 < (canonicalize (n, d)).2 ∧
    Int.gcd (canonicalize (n, d)).1 (canonicalize (n, d)).2 = 1 ∧
    from_two_ints n d = Except.ok (from_mpq (canonicalize (n, d))) ∧
    ((canonicalize (n, d)).2 = 1 →
      from_mpq (canonicalize (n, d)) = Number.integerN (canonicalize (n, d)).1) ∧
    ((canonicalize (n, d)).2 ≠ 1 →
      from_mpq (canonicalize (n, d)) =
        Number.rationalN (canonicalize (n, d)).1 (canonicalize (n, d)).2) ∧
    canonicalize (canonicalize (n, d)) = canonicalize (n, d) := by
  refine ⟨canonicalize_den_pos n d hd, canonicalize_gcd_one n d hd, ?_, ?_, ?_, ?_⟩
  · unfold from_two_ints
    rw [if_neg hd]
  · intro h1
    unfold from_mpq
    rw [if_pos h1]
  · intro h1
    unfold from_mpq
    rw [if_neg h1]
  · have hpos := canonicalize_den_pos n d hd
    have hg := canonicalize_gcd_one n d hd
    calc canonicalize (canonicalize (n, d))
        = canonicalize ((canonicalize (n, d)).1, (canonicalize (n, d)).2) := rfl
      _ = ((canonicalize (n, d)).1, (canonicalize (n, d)).2) :=
          canonicalize_of_canonical _ _ hpos hg
      _ = canonicalize (n, d) := rfl

/-- Witness for C1 at the concrete input (6, -4): canonical form (-3, 2). -/
theorem C1_from_two_ints_canonical_witness :
    (-4 : Int) ≠ 0 ∧
    (0 < (canonicalize (6, -4)).2 ∧
     Int.gcd (canonicalize ((6 : Int), (-4 : Int))).1 (canonicalize (6, -4)).2 = 1 ∧
     from_two_ints 6 (-4) = Except.ok (from_mpq (canonicalize (6, -4))) ∧
     ((canonicalize ((6 : Int), (-4 : Int))).2 = 1 →
       from_mpq (canonicalize (6, -4)) = Number.integerN (canonicalize (6, -4)).1) ∧
     ((canonicalize ((6 : Int), (-4 : Int))).2 ≠ 1 →
       from_mpq (canonicalize (6, -4)) =
         Number.rationalN (canonicalize (6, -4)).1 (canonicalize (6, -4)).2) ∧
     canonicalize (canonicalize (6, -4)) = canonicalize (6, -4)) :=
  ⟨by decide, C1_from_two_ints_canonical 6 (-4) (by decide)⟩

/-- Counterexample to claim C2 as stated: `from_mpq` does **not** reduce its
argument. On the unreduced, integral-valued fraction 4/2 it returns the
`Rational` variant holding 4/2 unchanged, not the `Integer` 2 that reduction
would demand. -/
theorem C2_from_mpq_counterexample :
    from_mpq (4, 2) = Number.rationalN 4 2 ∧
    from_mpq (4, 2) ≠ Number.integerN 2 ∧
    Int.gcd 4 2 ≠ 1 := by
  refine ⟨by decide, by decide, by decide⟩

/-- Claim C2, amended — `from_mpq` performs no reduction itself; it assumes its
input is already canonical (as `from_two_ints` guarantees by calling
`canonicalize` first). For an input fraction already in lowest terms with
positive denominator it returns an `Integer` exactly when the fraction is
integral, and otherwise a `Rational` holding the fraction unchanged. -/
theorem C2_from_mpq_on_canonical_input (n d : Int) (hpos : 0 < d)
    (hg : Int.gcd n d = 1) :
    (d = 1 → from_mpq (n, d) = Number.integerN n) ∧
    (d ≠ 1 → from_mpq (n, d) = Number.rationalN n d) ∧
    canonicalize (n, d) = (n, d) := by
  refine ⟨?_, ?_, canonicalize_of_canonical n d hpos hg⟩
  · intro h1
    unfold from_mpq
    rw [if_pos h1]
  · intro h1
    unfold from_mpq
    rw [if_neg h1]

/-- Witness for the amended C2 at the canonical input (3, 2). -/
theorem C2_from_mpq_on_canonical_input_witness :
    (0 : Int) < 2 ∧ Int.gcd 3 2 = 1 ∧
    (((2 : Int) = 1 → from_mpq (3, 2) = Number.integerN 3) ∧
     ((2 : Int) ≠ 1 → from_mpq (3, 2) = Number.rationalN 3 2) ∧
     canonicalize (3, 2) = (3, 2)) :=
  ⟨by decide, by decide, C2_from_mpq_on_canonical_input 3 2 (by decide) (by decide)⟩

/-- Exact natural n-th root: the unique `b` with `b ^ n = a`, if one exists,
found by bounded search. -/
def natRootExact (a n : Nat) : Option Nat :=
  (List.range (a + 1)).find? (fun b => b ^ n == a)

/-- The GMP integer-root primitive at the library boundary (`mpz_root`,
`i_nth_root`), restricted to its exactness content: `some r` with `r ^ n = a`
when `a` has an exact integer n-th root, `none` otherwise.  A nonnegative
argument yields a nonnegative root; a negative argument has a root only for
odd `n`. -/
def intRoot (a : Int) (n : Nat) : Option Int :=
  if 0 ≤ a then Option.map (fun b : Nat => (b : Int)) (natRootExact a.toNat n)
  else if n % 2 = 1 then
    Option.map (fun b : Nat => -(b : Int)) (natRootExact (-a).toNat n)
  else none

theorem natRootExact_sound {a n b : Nat} (h : natRootExact a n = some b) :
    b ^ n = a := by
  have := List.find?_some h
  simpa using this

theorem natRootExact_complete {a n b : Nat} (hn : n ≠ 0) (h : b ^ n = a) :
    (natRootExact a n).isSome := by
  unfold natRootExact
  rw [List.find?_isSome]
  refine ⟨b, ?_, by simpa using h⟩
  rw [List.mem_range]
  have hb : b ≤ b ^ n := Nat.le_self_pow hn b
  omega

theorem intRoot_sound {a : Int} {n : Nat} {r : Int} (h : intRoot a n = some r) :
    r ^ n = a := by
  unfold intRoot at h
  by_cases ha : 0 ≤ a
  · rw [if_pos ha] at h
    rcases hfind : natRootExact a.toNat n with _ | b
    · rw [hfind] at h
      simp at h
    · rw [hfind, Option.map_some', Option.some.injEq] at h
      have hb := natRootExact_sound hfind
      have hcast : ((b : Int)) ^ n = ((a.toNat : Int)) := by
        exact_mod_cast congrArg Nat.cast hb
      rw [← h]
      omega
  · rw [if_neg ha] at h
    by_cases hodd : n % 2 = 1
    · rw [if_pos hodd] at h
      rcases hfind : natRootExact (-a).toNat n with _ | b
      · rw [hfind] at h
        simp at h
      · rw [hfind, Option.map_some', Option.some.injEq] at h
        have hb := natRootExact_sound hfind
        have hcast : ((b : Int)) ^ n = (((-a).toNat : Int)) := by
          exact_mod_cast congrArg Nat.cast hb
        have hna : (((-a).toNat : Int)) = -a := by omega
        have hodd' : Odd n := Nat.odd_iff.mpr hodd
        rw [← h, Odd.neg_pow hodd', hcast, hna, neg_neg]
    · rw [if_neg hodd] at h
      simp at h

theorem intRoot_complete {a : Int} {n : Nat} (hn : n ≠ 0)
    (h : ∃ r : Int, r ^ n = a) : (intRoot a n).isSome := by
  obtain ⟨r, hr⟩ := h
  unfold intRoot
  by_cases ha : 0 ≤ a
  · rw [if_pos ha, Option.isSome_map']
    have habs : r.natAbs ^ n = a.toNat := by
      have : (r ^ n).natAbs = a.natAbs := by rw [hr]
      rw [Int.natAbs_pow] at this
      omega
    exact natRootExact_complete hn habs
  · rw [if_neg ha]
    have hodd : n % 2 = 1 := by
      rcases Nat.even_or_odd n with he | ho
      · exfalso
        have : 0 ≤ r ^ n := he.pow_nonneg r
        omega
      · exact Nat.odd_iff.mp ho
    rw [if_pos hodd, Option.isSome_map']
    have habs : r.natAbs ^ n = (-a).toNat := by
      have : (r ^ n).natAbs = a.natAbs := by rw [hr]
      rw [Int.natAbs_pow] at this
      omega
    exact natRootExact_complete hn habs

theorem intRoot_nonneg {a : Int} {n : Nat} {r : Int} (ha : 0 ≤ a)
    (h : intRoot a n = some r) : 0 ≤ r := by
  unfold intRoot at h
  rw [if_pos ha] at h
  rcases hfind : natRootExact a.toNat n with _ | b
  · rw [hfind] at h
    simp at h
  · rw [hfind, Option.map_some', Option.some.injEq] at h
    rw [← h]
    exact Int.natCast_nonneg b

/-- The success path of `Rational::nth_root`: extract the numerator root, then
the denominator root; populate the output only if both are exact. -/
def nth_root_core (num den : Int) (n : Nat) : Option (Int × Int) :=
  (intRoot num n).bind (fun rn => (intRoot den n).map (fun rd => (rn, rd)))

/-- `Rational::nth_root` (rational.cpp lines 127-142): reject degree 0, then
run the two-root extraction. -/
def nth_root (num den : Int) (n : Nat) : Except String (Option (Int × Int)) :=
  if n = 0 then Except.error "i_nth_root: Can not find Zeroth root"
  else Except.ok (nth_root_core num den n)

/-- Claim C3 — for a canonical Rational `num/den` and degree `n ≥ 1`,
`nth_root` succeeds exactly when both numerator and denominator have exact
integer n-th roots; a populated output raised to the n-th power reproduces the
input exactly, and it is already canonical (positive denominator, coprime,
non-integral); `none` models the untouched output argument. -/
theorem C3_nth_root_correct (num den : Int) (n : Nat)
    (hpos : 0 < den) (hg : Int.gcd num den = 1) (hden1 : den ≠ 1) (hn : 1 ≤ n) :
    ∃ res : Option (Int × Int),
      nth_root num den n = Except.ok res ∧
      (res.isSome ↔ ((∃ a : Int, a ^ n = num) ∧ (∃ b : Int, b ^ n = den))) ∧
      (∀ rn rd : Int, res = some (rn, rd) →
        rn ^ n = num ∧ rd ^ n = den ∧ 0 < rd ∧ Int.gcd rn rd = 1 ∧ rd ≠ 1) := by
  have hn0 : n ≠ 0 := by omega
  refine ⟨nth_root_core num den n, by rw [nth_root, if_neg hn0], ?_, ?_⟩
  · constructor
    · intro hsome
      rcases h1 : intRoot num n with _ | rn
      · rw [nth_root_core, h1, Option.none_bind] at hsome
        simp at hsome
      · rcases h2 : intRoot den n with _ | rd
        · rw [nth_root_core, h1, h2, Option.some_bind] at hsome
          simp at hsome
        · exact ⟨⟨rn, intRoot_sound h1⟩, ⟨rd, intRoot_sound h2⟩⟩
    · rintro ⟨ha, hb⟩
      have h1 := intRoot_complete hn0 ha
      have h2 := intRoot_complete hn0 hb
      rcases Option.isSome_iff_exists.mp h1 with ⟨rn, hrn⟩
      rcases Option.isSome_iff_exists.mp h2 with ⟨rd, hrd⟩
      rw [nth_root_core, hrn, hrd, Option.some_bind, Option.map_some']
      rfl
  · intro rn rd hres
    rcases h1 : intRoot num n with _ | rn0
    · rw [nth_root_core, h1, Option.none_bind] at hres
      simp at hres
    · rcases h2 : intRoot den n with _ | rd0
      · rw [nth_root_core, h1, h2, Option.some_bind] at hres
        simp at hres
      · rw [nth_root_core, h1, h2, Option.some_bind, Option.map_some',
          Option.some.injEq, Prod.mk.injEq] at hres
        obtain ⟨hrn, hrd⟩ := hres
        have hnum : rn ^ n = num := by rw [← hrn]; exact intRoot_sound h1
        have hden : rd ^ n = den := by rw [← hrd]; exact intRoot_sound h2
        have hrd0 : 0 ≤ rd := by
          rw [← hrd]
          exact intRoot_nonneg (le_of_lt hpos) h2
        have hrdne : rd ≠ 0 := by
          intro h0
          rw [h0] at hden
          rw [zero_pow hn0] at hden
          omega
        have hrdpos : 0 < rd := lt_of_le_of_ne hrd0 (Ne.symm hrdne)
        refine ⟨hnum, hden, hrdpos, ?_, ?_⟩
        · have hcop : Nat.Coprime (rn.natAbs ^ n) (rd.natAbs ^ n) := by
            have h1' : (rn ^ n).natAbs = rn.natAbs ^ n := Int.natAbs_pow rn n
            have h2' : (rd ^ n).natAbs = rd.natAbs ^ n := Int.natAbs_pow rd n
            have : Nat.Coprime (rn ^ n).natAbs (rd ^ n).natAbs := by
              rw [hnum, hden]
              exact hg
            rwa [h1', h2'] at this
          have hdvd1 : rn.natAbs ∣ rn.natAbs ^ n := dvd_pow_self _ hn0
          have hdvd2 : rd.natAbs ∣ rd.natAbs ^ n := dvd_pow_self _ hn0
          exact Nat.Coprime.coprime_dvd_right hdvd2
            (Nat.Coprime.coprime_dvd_left hdvd1 hcop)
        · intro hrd1
          rw [hrd1, one_pow] at hden
          exact hden1 hden.symm

/-- Witness for C3 at the canonical input 8/27 with degree 3: the cube root
populates 2/3. -/
theorem C3_nth_root_correct_witness :
    ((0 : Int) < 27 ∧ Int.gcd 8 27 = 1 ∧ (27 : Int) ≠ 1 ∧ 1 ≤ 3) ∧
    ∃ res : Option (Int × Int),
      nth_root 8 27 3 = Except.ok res ∧
      (res.isSome ↔ ((∃ a : Int, a ^ 3 = 8) ∧ (∃ b : Int, b ^ 3 = 27))) ∧
      (∀ rn rd : Int, res = some (rn, rd) →
        rn ^ 3 = 8 ∧ rd ^ 3 = 27 ∧ 0 < rd ∧ Int.gcd rn rd = 1 ∧ rd ≠ 1) :=
  ⟨⟨by decide, by decide, by decide, by decide⟩,
    C3_nth_root_correct 8 27 3 (by decide) (by decide) (by decide) (by decide)⟩

/-! ## The decision-tree matcher (`src/unnamed/part_000`)

Expression trees are embedded as a small closed inductive exposing exactly the
capabilities the generated matcher uses: an `is_a<Pow>` tag test, the ordered
children of a node (`get_deque`), and structural equality (`__eq__`). -/

/-- Expression nodes: symbols, integer atoms, a binary sum and a power node
(symengine `Pow` always has exactly the two children base and exponent). -/
inductive BasicExpr where
  | symE : String → BasicExpr
  | intAtom : Int → BasicExpr
  | addE : BasicExpr → BasicExpr → BasicExpr
  | powE : BasicExpr → BasicExpr → BasicExpr
deriving DecidableEq

/-- The fixed symbol `x` referenced by the compiled pattern. -/
def symX : BasicExpr := BasicExpr.symE "x"

/-- The symbol `y` used by the test subjects. -/
def symY : BasicExpr := BasicExpr.symE "y"

/-- The `is_a<Pow>` structural tag test. -/
def isPowNode : BasicExpr → Bool
  | BasicExpr.powE _ _ => true
  | _ => false

/-- `get_deque`: the ordered immediate children of a compound node. -/
def get_deque : BasicExpr → List BasicExpr
  | BasicExpr.powE b e => [b, e]
  | BasicExpr.addE a b => [a, b]
  | _ => []

/-- Is the subject a power node whose base is literally the symbol `x`? -/
def isPowBaseX : BasicExpr → Bool
  | BasicExpr.powE b _ => b = symX
  | _ => false

/-- A substitution: pattern-variable name to bound subexpression. -/
def Subst := List (String × BasicExpr)

/-- `try_add_variable` from the matchpycpp runtime: adding a binding fails
(`none`) only when the name is already bound to a structurally different
value. -/
def try_add_variable (s : Subst) (k : String) (v : BasicExpr) : Option Subst :=
  match List.lookup k s with
  | some u => if u = v then some s else none
  | none => some ((k, v) :: s)

/-- One emitted match result: (pattern id, substitution). -/
def MatchRes := Int × List (String × BasicExpr)

/-- States 2219-2221 of the generated automaton: pop the exponent `tmp4`,
bind it to the internal variable `i2`, emit `(0, \x7bw : i2\x7d)` if both
queues are exhausted, then push `tmp4` back.  Returns the results together
with the final outer queue and the final nested queue. -/
def state2219 (subjects subjects2 : List BasicExpr) (subst0 : Subst) :
    List MatchRes × List BasicExpr × List BasicExpr :=
  match subjects2 with
  | [] => ([], subjects, [])
  | tmp4 :: rest =>
    let result : List MatchRes :=
      match try_add_variable subst0 "i2" tmp4 with
      | none => []
      | some subst1 =>
        if rest.length = 0 then
          if subjects.length = 0 then
            match List.lookup "i2" subst1 with
            | some v => [((0 : Int), [("w", v)])]
            | none => []
          else []
        else []
    (result, subjects, tmp4 :: rest)

/-- State 2218: if the front of the nested queue equals the symbol `x`, pop it,
run the continuation, and push it back. -/
def state2218 (subjects subjects2 : List BasicExpr) (subst0 : Subst) :
    List MatchRes × List BasicExpr × List BasicExpr :=
  match subjects2 with
  | [] => ([], subjects, [])
  | tmp3 :: rest =>
    if tmp3 = symX then
      let r := state2219 subjects rest subst0
      (r.1, r.2.1, tmp3 :: r.2.2)
    else ([], subjects, tmp3 :: rest)

/-- State 2217 and the surrounding body of `match_root`: if the front of the
outer queue is a `Pow` node, pop it, decompose it into the nested queue of its
children, run the continuation, and push it back.  Returns the results with
the final outer queue. -/
def match_root_state (subjects : List BasicExpr) :
    List MatchRes × List BasicExpr :=
  match subjects with
  | [] => ([], [])
  | tmp1 :: rest =>
    if isPowNode tmp1 then
      let r := state2218 rest (get_deque tmp1) []
      (r.1, tmp1 :: r.2.1)
    else ([], tmp1 :: rest)

/-- `match_root(subject)`: seed the queue with the single subject and run the
automaton. -/
def match_root (subject : BasicExpr) : List MatchRes :=
  (match_root_state [subject]).1

/-- Claim C4 — the automaton for the single pattern `x**w` matches exactly the
powers whose base is literally the symbol `x`: `pow(x, e)` yields the single
result `(0, [w := e])` for every expression `e`, and every other subject
yields the empty result sequence. -/
theorem C4_match_root_pattern :
    (∀ e : BasicExpr,
      match_root (BasicExpr.powE symX e) = [((0 : Int), [("w", e)])]) ∧
    (∀ s : BasicExpr, isPowBaseX s = false → match_root s = []) := by
  constructor
  · intro e
    simp [match_root, match_root_state, state2218, state2219, isPowNode,
      get_deque, try_add_variable, List.lookup]
  · intro s hs
    cases s with
    | symE a => simp [match_root, match_root_state, isPowNode]
    | intAtom a => simp [match_root, match_root_state, isPowNode]
    | addE a b => simp [match_root, match_root_state, isPowNode]
    | powE b e =>
      have hb : b ≠ symX := by
        intro hcontra
        rw [isPowBaseX, hcontra] at hs
        simp at hs
      simp [match_root, match_root_state, state2218, isPowNode, get_deque, hb]

/-- Witness for C4: the scenarios fixed by the spec — `x**2` matches with
`w := 2`; `x + y` and `y**2` yield the empty sequence. -/
theorem C4_match_root_pattern_witness :
    match_root (BasicExpr.powE symX (BasicExpr.intAtom 2)) =
      [((0 : Int), [("w", BasicExpr.intAtom 2)])] ∧
    (isPowBaseX (BasicExpr.addE symX symY) = false ∧
      match_root (BasicExpr.addE symX symY) = []) ∧
    (isPowBaseX (BasicExpr.powE symY (BasicExpr.intAtom 2)) = false ∧
      match_root (BasicExpr.powE symY (BasicExpr.intAtom 2)) = []) :=
  ⟨C4_match_root_pattern.1 (BasicExpr.intAtom 2),
   ⟨by decide, C4_match_root_pattern.2 (BasicExpr.addE symX symY) (by decide)⟩,
   ⟨by decide,
    C4_match_root_pattern.2 (BasicExpr.powE symY (BasicExpr.intAtom 2)) (by decide)⟩⟩

/-- Claim C9 — stack-disciplined rollback: at every level of the automaton,
each pop from the outer queue or a nested child queue is matched by a push
restoring the popped element, so after every branch the queues hold exactly
the elements they held before the branch was attempted. -/
theorem C9_match_root_queue_restoration :
    (∀ subjects subjects2 : List BasicExpr, ∀ subst0 : Subst,
      (state2219 subjects subjects2 subst0).2.1 = subjects ∧
      (state2219 subjects subjects2 subst0).2.2 = subjects2) ∧
    (∀ subjects subjects2 : List BasicExpr, ∀ subst0 : Subst,
      (state2218 subjects subjects2 subst0).2.1 = subjects ∧
      (state2218 subjects subjects2 subst0).2.2 = subjects2) ∧
    (∀ subjects : List BasicExpr,
      (match_root_state subjects).2 = subjects) := by
  have h2219 : ∀ subjects subjects2 : List BasicExpr, ∀ subst0 : Subst,
      (state2219 subjects subjects2 subst0).2.1 = subjects ∧
      (state2219 subjects subjects2 subst0).2.2 = subjects2 := by
    intro subjects subjects2 subst0
    cases subjects2 with
    | nil => exact ⟨rfl, rfl⟩
    | cons tmp4 rest => exact ⟨rfl, rfl⟩
  have h2218 : ∀ subjects subjects2 : List BasicExpr, ∀ subst0 : Subst,
      (state2218 subjects subjects2 subst0).2.1 = subjects ∧
      (state2218 subjects subjects2 subst0).2.2 = subjects2 := by
    intro subjects subjects2 subst0
    cases subjects2 with
    | nil => exact ⟨rfl, rfl⟩
    | cons tmp3 rest =>
      by_cases h : tmp3 = symX
      · have hr := h2219 subjects rest subst0
        simp only [state2218, if_pos h]
        exact ⟨hr.1, by rw [hr.2]⟩
      · simp [state2218, if_neg h]
  refine ⟨h2219, h2218, ?_⟩
  intro subjects
  cases subjects with
  | nil => rfl
  | cons tmp1 rest =>
    by_cases h : isPowNode tmp1
    · have hr := h2218 rest (get_deque tmp1) []
      simp only [match_root_state, if_pos h]
      rw [hr.1]
    · simp only [match_root_state, if_neg h]

/-! ## Perfect-power test (`Rational::is_perfect_power`) -/

/-- The GMP primitive `mpz_perfect_power_p` at the library boundary: is `z`
expressible as `c ^ k` with integer `c` and `k ≥ 2`?  (0 and 1 are perfect
powers; a negative value is one exactly when it is an odd perfect power.)
Realized by bounded search, which suffices: a nontrivial witness satisfies
`|c| ≤ |z|` and `k ≤ |z|`. -/
def isPerfectPowerZ (z : Int) : Bool :=
  if z = 0 ∨ z = 1 ∨ z = -1 then true
  else (List.range (z.natAbs + 1)).any (fun k =>
    decide (2 ≤ k) && (List.range (z.natAbs + 1)).any (fun a =>
      ((a : Int) ^ k == z) || ((-(a : Int)) ^ k == z)))

theorem isPerfectPowerZ_iff (z : Int) :
    isPerfectPowerZ z = true ↔ ∃ c : Int, ∃ k : Nat, 2 ≤ k ∧ c ^ k = z := by
  unfold isPerfectPowerZ
  by_cases hz : z = 0 ∨ z = 1 ∨ z = -1
  · rw [if_pos hz]
    simp only [true_iff]
    rcases hz with h | h | h
    · exact ⟨0, 2, by omega, by rw [h]; ring⟩
    · exact ⟨1, 2, by omega, by rw [h]; ring⟩
    · exact ⟨-1, 3, by omega, by rw [h]; ring⟩
  · rw [if_neg hz, List.any_eq_true]
    constructor
    · rintro ⟨k, hk, hkp⟩
      rw [Bool.and_eq_true] at hkp
      obtain ⟨hk2, hany⟩ := hkp
      rw [List.any_eq_true] at hany
      obtain ⟨a, ha, hpow⟩ := hany
      rw [Bool.or_eq_true] at hpow
      have hk2' : 2 ≤ k := by simpa using hk2
      rcases hpow with hp | hp
      · exact ⟨(a : Int), k, hk2', by simpa using hp⟩
      · exact ⟨-(a : Int), k, hk2', by simpa using hp⟩
    · rintro ⟨c, k, hk2, hck⟩
      push_neg at hz
      obtain ⟨hz0, hz1, hzm1⟩ := hz
      have hc2 : 2 ≤ c.natAbs := by
        by_contra hlt
        have hcases : c = 0 ∨ c = 1 ∨ c = -1 := by omega
        rcases hcases with h | h | h
        · rw [h, zero_pow (by omega)] at hck
          exact hz0 hck.symm
        · rw [h, one_pow] at hck
          exact hz1 hck.symm
        · rw [h] at hck
          rcases neg_one_pow_eq_or Int k with hp | hp
          · rw [hp] at hck
            exact hz1 hck.symm
          · rw [hp] at hck
            exact hzm1 hck.symm
      have habs : c.natAbs ^ k = z.natAbs := by rw [← Int.natAbs_pow, hck]
      have hkle : k ≤ z.natAbs := by
        have h2k : 2 ^ k ≤ c.natAbs ^ k := Nat.pow_le_pow_left hc2 k
        have hklt : k < 2 ^ k := Nat.lt_two_pow k
        omega
      have hale : c.natAbs ≤ z.natAbs := by
        have : c.natAbs ≤ c.natAbs ^ k := Nat.le_self_pow (by omega) _
        omega
      refine ⟨k, by rw [List.mem_range]; omega, ?_⟩
      rw [Bool.and_eq_true]
      refine ⟨by simpa using hk2, ?_⟩
      rw [List.any_eq_true]
      refine ⟨c.natAbs, by rw [List.mem_range]; omega, ?_⟩
      rw [Bool.or_eq_true]
      rcases le_or_lt 0 c with hc | hc
      · left
        rw [beq_iff_eq, Int.natAbs_of_nonneg hc]
        exact hck
      · right
        rw [beq_iff_eq]
        have : -((c.natAbs : Int)) = c := by omega
        rw [this]
        exact hck

/-- `Rational::is_perfect_power` (rational.cpp lines 103-125): trivially true
for numerator 0; for numerator exactly 1, the test on the denominator alone;
otherwise, when the hint `is_expected` is false, an early-exit test on the
side of larger magnitude, then the full test on numerator times denominator. -/
def is_perfect_power (num den : Int) (is_expected : Bool) : Bool :=
  if num = 0 then true
  else if num = 1 then isPerfectPowerZ den
  else if is_expected = false then
    if den.natAbs < num.natAbs then
      if isPerfectPowerZ den = false then false else isPerfectPowerZ (num * den)
    else
      if isPerfectPowerZ num = false then false else isPerfectPowerZ (num * den)
  else isPerfectPowerZ (num * den)

/-- Counterexample to claim C7 as stated: for the canonical Rational -1/4 the
numerator has magnitude 1, yet `is_perfect_power` returns false under both
hints while the perfect-power test applied to the denominator alone returns
true (the code tests `num == 1` only, and for -1 falls through to the test on
`num * den = -4`). -/
theorem C7_is_perfect_power_counterexample :
    is_perfect_power (-1) 4 true = false ∧
    is_perfect_power (-1) 4 false = false ∧
    isPerfectPowerZ 4 = true ∧
    Int.gcd (-1) 4 = 1 ∧ (0 : Int) < 4 ∧ (4 : Int) ≠ 1 := by
  refine ⟨by decide, by decide, by decide, by decide, by decide, by decide⟩

/-- Claim C7, amended — for a canonical Rational with numerator exactly 1,
`is_perfect_power` delegates to the perfect-power test on the denominator
alone, under both hints; for numerator -1 both hints instead return the
perfect-power test of the **negated** denominator (an odd-perfect-power test),
which can disagree with the test on the denominator alone. -/
theorem C7_is_perfect_power_unit_numerator (den : Int) (hden : 1 < den) :
    (∀ hint : Bool, is_perfect_power 1 den hint = isPerfectPowerZ den) ∧
    (∀ hint : Bool, is_perfect_power (-1) den hint = isPerfectPowerZ (-den)) := by
  constructor
  · intro hint
    unfold is_perfect_power
    rw [if_neg (by omega), if_pos rfl]
  · intro hint
    have hm1 : ((-1 : Int)) * den = -den := by ring
    unfold is_perfect_power
    rw [if_neg (by omega), if_neg (by omega)]
    cases hint with
    | true => rw [if_neg (by simp), hm1]
    | false =>
      rw [if_pos rfl]
      have habs : ¬ (den.natAbs < (-1 : Int).natAbs) := by
        simp only [Int.natAbs_neg, Int.natAbs_one]
        omega
      rw [if_neg habs]
      have hppm1 : isPerfectPowerZ (-1) = true := by decide
      rw [if_neg (by rw [hppm1]; simp), hm1]

/-- Witness for the amended C7 at denominator 4: numerator 1 delegates to
`isPerfectPowerZ 4`; numerator -1 yields `isPerfectPowerZ (-4)`. -/
theorem C7_is_perfect_power_unit_numerator_witness :
    (1 : Int) < 4 ∧
    ((∀ hint : Bool, is_perfect_power 1 4 hint = isPerfectPowerZ 4) ∧
     (∀ hint : Bool, is_perfect_power (-1) 4 hint = isPerfectPowerZ (-4))) :=
  ⟨by decide, C7_is_perfect_power_unit_numerator 4 (by decide)⟩

/-- For coprime `num` and positive `den`, if `num * den` is a perfect power
then each factor is itself a perfect power (with sign bookkeeping for a
negative numerator, where the exponent must be odd). -/
theorem perfect_power_of_coprime_mul {num den c : Int} {k : Nat}
    (hg : Int.gcd num den = 1) (hden : 0 < den) (hk : 2 ≤ k)
    (h : c ^ k = num * den) :
    (∃ a : Int, ∃ j : Nat, 2 ≤ j ∧ a ^ j = num) ∧
    (∃ b : Int, ∃ j : Nat, 2 ≤ j ∧ b ^ j = den) := by
  have hco : Nat.Coprime num.natAbs den.natAbs := hg
  have hnatpow : num.natAbs * den.natAbs = c.natAbs ^ k := by
    rw [← Int.natAbs_mul, ← h, Int.natAbs_pow]
  have hunit : IsUnit (GCDMonoid.gcd num.natAbs den.natAbs) := by
    have : GCDMonoid.gcd num.natAbs den.natAbs = Nat.gcd num.natAbs den.natAbs := rfl
    rw [this, hco]
    exact isUnit_one
  obtain ⟨dn, hdn⟩ := exists_eq_pow_of_mul_eq_pow hunit hnatpow
  have hunit' : IsUnit (GCDMonoid.gcd den.natAbs num.natAbs) := by
    have : GCDMonoid.gcd den.natAbs num.natAbs = Nat.gcd den.natAbs num.natAbs := rfl
    rw [this, Nat.Coprime.gcd_eq_one hco.symm]
    exact isUnit_one
  obtain ⟨dd, hdd⟩ := exists_eq_pow_of_mul_eq_pow hunit' (by rw [mul_comm]; exact hnatpow)
  constructor
  · rcases le_or_lt 0 num with hnum | hnum
    · refine ⟨(dn : Int), k, hk, ?_⟩
      have : ((num.natAbs : Int)) = num := Int.natAbs_of_nonneg hnum
      rw [← this, hdn]
      push_cast
      ring
    · have hprodneg : c ^ k < 0 := by
        rw [h]
        exact mul_neg_of_neg_of_pos hnum hden
      have hkodd : Odd k := by
        rcases Nat.even_or_odd k with he | ho
        · exfalso
          have : (0 : Int) ≤ c ^ k := he.pow_nonneg c
          omega
        · exact ho
      refine ⟨-(dn : Int), k, hk, ?_⟩
      rw [Odd.neg_pow hkodd]
      have habs : ((num.natAbs : Int)) = -num := by omega
      have : ((dn : Int)) ^ k = ((num.natAbs : Int)) := by
        rw [hdn]
        push_cast
        ring
      rw [this, habs, neg_neg]
  · refine ⟨(dd : Int), k, hk, ?_⟩
    have : ((den.natAbs : Int)) = den := Int.natAbs_of_nonneg (le_of_lt hden)
    rw [← this, hdd]
    push_cast
    ring

/-- Claim C8 — for every canonical Rational, the hinted short-circuit path and
the unconditional full check of `is_perfect_power` return the same boolean. -/
theorem C8_is_perfect_power_hint_agrees (num den : Int)
    (hg : Int.gcd num den = 1) (hden : 1 < den) :
    is_perfect_power num den true = is_perfect_power num den false := by
  unfold is_perfect_power
  by_cases h0 : num = 0
  · rw [if_pos h0, if_pos h0]
  · rw [if_neg h0, if_neg h0]
    by_cases h1 : num = 1
    · rw [if_pos h1, if_pos h1]
    · rw [if_neg h1, if_neg h1]
      rw [if_neg (by simp), if_pos rfl]
      by_cases hcmp : den.natAbs < num.natAbs
      · rw [if_pos hcmp]
        by_cases hppden : isPerfectPowerZ den = false
        · rw [if_pos hppden]
          by_cases hpp : isPerfectPowerZ (num * den) = true
          · exfalso
            obtain ⟨c, k, hk, hck⟩ := (isPerfectPowerZ_iff _).mp hpp
            have := (perfect_power_of_coprime_mul hg (by omega) hk hck).2
            obtain ⟨b, j, hj, hbj⟩ := this
            have : isPerfectPowerZ den = true :=
              (isPerfectPowerZ_iff den).mpr ⟨b, j, hj, hbj⟩
            rw [this] at hppden
            exact Bool.noConfusion hppden
          · exact (Bool.not_eq_true _).mp hpp
        · rw [if_neg hppden]
      · rw [if_neg hcmp]
        by_cases hppnum : isPerfectPowerZ num = false
        · rw [if_pos hppnum]
          by_cases hpp : isPerfectPowerZ (num * den) = true
          · exfalso
            obtain ⟨c, k, hk, hck⟩ := (isPerfectPowerZ_iff _).mp hpp
            have := (perfect_power_of_coprime_mul hg (by omega) hk hck).1
            obtain ⟨a, j, hj, haj⟩ := this
            have : isPerfectPowerZ num = true :=
              (isPerfectPowerZ_iff num).mpr ⟨a, j, hj, haj⟩
            rw [this] at hppnum
            exact Bool.noConfusion hppnum
          · exact (Bool.not_eq_true _).mp hpp
        · rw [if_neg hppnum]

/-- Witness for C8 at the canonical Rational -8/27 (both paths answer true:
-8 * 27 = -216 = (-6)^3). -/
theorem C8_is_perfect_power_hint_agrees_witness :
    Int.gcd (-8) 27 = 1 ∧ (1 : Int) < 27 ∧
    is_perfect_power (-8) 27 true = is_perfect_power (-8) 27 false :=
  ⟨by decide, by decide,
    C8_is_perfect_power_hint_agrees (-8) 27 (by decide) (by decide)⟩

/-! ## Rational exponentiation (`Rational::powrat` / `Rational::rpowrat`)

The symbolic layer these functions build on (`SymEngine::mul`,
`Mul::from_dict`, `Integer::powint`, the imaginary unit `I` and `imulnum`)
is repository code that is not under `src/`; it is modelled from the spec
(product-of-powers accumulator keyed by base, multiplicative combination,
exact integer exponentiation, explicit imaginary-unit factor). -/

/-- Modelled from the spec: `Number::neg`, exact negation of a numeric value
(repository code not under src/). -/
def negN : Number → Number
  | Number.integerN n => Number.integerN (-n)
  | Number.rationalN p q => Number.rationalN (-p) q
  | Number.imagTimes c => Number.imagTimes (negN c)

/-- Modelled from the spec: `Integer::powint`, exact integer exponentiation
(repository code not under src/).  A nonnegative exponent yields an Integer;
a negative exponent yields the canonical reciprocal `1 / b^(-e)`. -/
def powint (b e : Int) : Number :=
  if 0 ≤ e then Number.integerN (b ^ e.toNat)
  else from_mpq (canonicalize (1, b ^ (-e).toNat))

/-- Modelled from the spec: the value `I^k * x` contributed by a negative base
under an even root degree (`I->pow(get_num())->mul(res->powint(get_num()))`),
using the four-cycle of powers of the imaginary unit. -/
def iPowTimes (k : Int) (x : Number) : Number :=
  if k % 4 = 0 then x
  else if k % 4 = 1 then Number.imagTimes x
  else if k % 4 = 2 then negN x
  else Number.imagTimes (negN x)

/-- The symbolic expressions produced by `rpowrat` and `powrat`.
`mulDict c l` models `Mul::from_dict(coef, dict)` — modelled from the spec:
the product-of-powers accumulator keyed by base, with numeric coefficient.
`mulE a b` models `SymEngine::mul(a, b)` — modelled from the spec:
multiplicative combination of two results. -/
inductive SymExpr where
  | numE : Number → SymExpr
  | mulDict : Number → List (Number × Number) → SymExpr
  | mulE : SymExpr → SymExpr → SymExpr
deriving DecidableEq

/-- The fallback branch of `Rational::rpowrat` (rational.cpp lines 166-186):
floor-divide the exponent numerator by its denominator, keep `base^q` as the
exact coefficient, and record the surd `base^(r/den)` in the accumulator —
except that a negative base under `den = 2` factors the imaginary unit into
the coefficient and keys the surd by the negated (positive) base, omitting
the key entirely when that negated base is 1. -/
def rpowrat_fallback (en ed b : Int) : SymExpr :=
  let q := Int.fdiv en ed
  let r := Int.fmod en ed
  let coef := powint b q
  if b < 0 ∧ ed = 2 then
    SymExpr.mulDict (Number.imagTimes coef)
      (if b = -1 then [] else [(Number.integerN (-b), from_mpq (r, ed))])
  else
    SymExpr.mulDict coef [(Number.integerN b, from_mpq (r, ed))]

/-- The body of `Rational::rpowrat` after the ulong fits-check
(rational.cpp lines 151-186): `self = en/ed` is the exponent, `b` the integer
base.  Attempt an exact `ed`-th root of `|b|`; on success combine signs and
the `en`-th power; on failure fall back to the surd decomposition. -/
def rpowrat_core (en ed b : Int) : SymExpr :=
  if b < 0 then
    match intRoot (-b) ed.toNat with
    | some res =>
      if ed.toNat % 2 = 0 then SymExpr.numE (iPowTimes en (powint res en))
      else SymExpr.numE (negN (powint res en))
    | none => rpowrat_fallback en ed b
  else
    match intRoot b ed.toNat with
    | some res => SymExpr.numE (powint res en)
    | none => rpowrat_fallback en ed b

/-- `Rational::rpowrat` (rational.cpp lines 148-187): reject an exponent
denominator that does not fit an unsigned long (modelled as 64 bits), then run
the core.  (The thrown message contains quotes around exp, elided here.) -/
def rpowrat (en ed b : Int) : Except String SymExpr :=
  if 0 ≤ ed ∧ ed < 2 ^ 64 then Except.ok (rpowrat_core en ed b)
  else Except.error "powrat: den of exp does not fit ulong."

/-- `Rational::powrat` (rational.cpp lines 144-146): with `this = sn/sd` the
base and `other = en/ed` the exponent, multiply `other.rpowrat(sn)` by
`other.neg().rpowrat(sd)`. -/
def powrat (sn sd en ed : Int) : Except String SymExpr :=
  match rpowrat en ed sn with
  | Except.error e => Except.error e
  | Except.ok a =>
    match rpowrat (-en) ed sd with
    | Except.error e => Except.error e
    | Except.ok b => Except.ok (SymExpr.mulE a b)

/-- Claim C10 — whenever the exponent denominator does not fit an unsigned
long, `rpowrat` (and hence `powrat`, which calls it on both factors) fails
with the runtime error about the exponent denominator. -/
theorem C10_powrat_ulong_limit (sn sd en ed : Int) (h : 2 ^ 64 ≤ ed) :
    rpowrat en ed sn = Except.error "powrat: den of exp does not fit ulong." ∧
    powrat sn sd en ed =
      Except.error "powrat: den of exp does not fit ulong." := by
  have hfail : rpowrat en ed sn =
      Except.error "powrat: den of exp does not fit ulong." := by
    unfold rpowrat
    rw [if_neg (by omega)]
  refine ⟨hfail, ?_⟩
  unfold powrat
  rw [hfail]

/-- Witness for C10 at the smallest non-fitting denominator `2^64`. -/
theorem C10_powrat_ulong_limit_witness :
    (2 : Int) ^ 64 ≤ 2 ^ 64 ∧
    (rpowrat 3 (2 ^ 64) 5 =
        Except.error "powrat: den of exp does not fit ulong." ∧
      powrat 5 7 3 (2 ^ 64) =
        Except.error "powrat: den of exp does not fit ulong.") :=
  ⟨le_refl _, C10_powrat_ulong_limit 5 7 3 (2 ^ 64) (le_refl _)⟩

/-- gcd is invariant under adding an integer multiple of the second argument
to the first. -/
theorem gcd_add_mul_int (m n k : Int) : Int.gcd (m + k * n) n = Int.gcd m n := by
  apply Nat.dvd_antisymm
  · rw [← Int.natCast_dvd_natCast]
    apply Int.dvd_gcd
    · have h1 : ((Int.gcd (m + k * n) n : Int)) ∣ m + k * n := Int.gcd_dvd_left
      have h2 : ((Int.gcd (m + k * n) n : Int)) ∣ n := Int.gcd_dvd_right
      have h3 : ((Int.gcd (m + k * n) n : Int)) ∣ k * n := Dvd.dvd.mul_left h2 k
      have := dvd_sub h1 h3
      simpa using this
    · exact Int.gcd_dvd_right
  · rw [← Int.natCast_dvd_natCast]
    apply Int.dvd_gcd
    · have h1 : ((Int.gcd m n : Int)) ∣ m := Int.gcd_dvd_left
      have h2 : ((Int.gcd m n : Int)) ∣ n := Int.gcd_dvd_right
      exact dvd_add h1 (Dvd.dvd.mul_left h2 k)
    · exact Int.gcd_dvd_right

/-- Claim C5 — when exact root extraction fails in `rpowrat` for a canonical
exponent `en/ed`, the result is the spec's normal-form decomposition with
`q` and `r` the floor quotient and remainder of the exponent numerator by the
exponent denominator (`0 ≤ r < ed`, `en = ed*q + r`, `r/ed` still canonical):
`base^q` times the surd `base^(r/ed)` keyed by the base in the accumulator —
except that for `den = 2` and a negative base the imaginary unit is factored
into the coefficient and the surd is keyed by the positive `-base`. -/
theorem C5_rpowrat_fallback_decomposition (en ed b : Int)
    (hed : 0 < ed) (hg : Int.gcd en ed = 1) (hed1 : ed ≠ 1)
    (hfail : intRoot ((b.natAbs : Int)) ed.toNat = none) :
    ∃ q r : Int,
      en = ed * q + r ∧ 0 ≤ r ∧ r < ed ∧ Int.gcd r ed = 1 ∧ r ≠ 0 ∧
      rpowrat_core en ed b =
        (if b < 0 ∧ ed = 2 then
          SymExpr.mulDict (Number.imagTimes (powint b (Int.fdiv en ed)))
            [(Number.integerN (-b), Number.rationalN r ed)]
        else
          SymExpr.mulDict (powint b (Int.fdiv en ed))
            [(Number.integerN b, Number.rationalN r ed)]) ∧
      Int.fdiv en ed = q := by
  have hedne : ed ≠ 0 := by omega
  have hzn : ed.toNat ≠ 0 := by omega
  refine ⟨Int.fdiv en ed, Int.fmod en ed, ?_, ?_, ?_, ?_, ?_, ?_, rfl⟩
  · rw [Int.fdiv_eq_ediv en (by omega), Int.fmod_eq_emod en (by omega)]
    exact (Int.ediv_add_emod en ed).symm
  · rw [Int.fmod_eq_emod en (by omega)]
    exact Int.emod_nonneg en hedne
  · rw [Int.fmod_eq_emod en (by omega)]
    exact Int.emod_lt_of_pos en hed
  · rw [Int.fmod_eq_emod en (by omega)]
    have hre : en % ed = en + (-(en / ed)) * ed := by
      linarith [Int.ediv_add_emod en ed]
    rw [hre, gcd_add_mul_int]
    exact hg
  · rw [Int.fmod_eq_emod en (by omega)]
    intro hr0
    have hdvd : ed ∣ en := Int.dvd_of_emod_eq_zero hr0
    have hdvdg : ed ∣ ((Int.gcd en ed : Int)) := Int.dvd_gcd hdvd dvd_rfl
    rw [hg] at hdvdg
    have := Int.le_of_dvd (by norm_num) hdvdg
    omega
  · have hb1 : b ≠ -1 := by
      intro hb
      have : intRoot ((b.natAbs : Int)) ed.toNat ≠ none := by
        have hs : (intRoot ((b.natAbs : Int)) ed.toNat).isSome :=
          intRoot_complete hzn ⟨1, by rw [hb]; simp⟩
        intro hcontra
        rw [hcontra] at hs
        exact Bool.noConfusion hs
      exact this hfail
    have hfromr : from_mpq (Int.fmod en ed, ed) =
        Number.rationalN (Int.fmod en ed) ed := by
      unfold from_mpq
      rw [if_neg hed1]
    by_cases hbneg : b < 0
    · have habs : ((b.natAbs : Int)) = -b := by omega
      rw [habs] at hfail
      unfold rpowrat_core
      rw [if_pos hbneg, hfail]
      unfold rpowrat_fallback
      by_cases hcase : b < 0 ∧ ed = 2
      · rw [if_pos hcase, if_pos hcase, if_neg hb1, hfromr]
      · rw [if_neg hcase, if_neg hcase, hfromr]
    · have habs : ((b.natAbs : Int)) = b := by omega
      rw [habs] at hfail
      unfold rpowrat_core
      rw [if_neg hbneg, hfail]
      unfold rpowrat_fallback
      have hcase : ¬ (b < 0 ∧ ed = 2) := by tauto
      rw [if_neg hcase, if_neg hcase, hfromr]

/-- Witness for C5: exponent 1/2, base 2 (square root of 2 is inexact):
the decomposition is `2^0` times the surd `2^(1/2)`. -/
theorem C5_rpowrat_fallback_decomposition_witness :
    ((0 : Int) < 2 ∧ Int.gcd 1 2 = 1 ∧ (2 : Int) ≠ 1 ∧
      intRoot (((2 : Int).natAbs : Int)) (2 : Int).toNat = none) ∧
    ∃ q r : Int,
      (1 : Int) = 2 * q + r ∧ 0 ≤ r ∧ r < 2 ∧ Int.gcd r 2 = 1 ∧ r ≠ 0 ∧
      rpowrat_core 1 2 2 =
        (if (2 : Int) < 0 ∧ (2 : Int) = 2 then
          SymExpr.mulDict (Number.imagTimes (powint 2 (Int.fdiv 1 2)))
            [(Number.integerN (-2), Number.rationalN r 2)]
        else
          SymExpr.mulDict (powint 2 (Int.fdiv 1 2))
            [(Number.integerN 2, Number.rationalN r 2)]) ∧
      Int.fdiv 1 2 = q :=
  ⟨⟨by decide, by decide, by decide, by decide⟩,
    C5_rpowrat_fallback_decomposition 1 2 2 (by decide) (by decide) (by decide)
      (by decide)⟩

/-! ## Real-valued semantics of the symbolic results -/

/-- Real-valued evaluation of a numeric value.  Imaginary-unit factors fall
outside the real fragment and are mapped to 0; the theorems below only
evaluate expressions built from positive bases, where no such factor occurs. -/
noncomputable def evalNum : Number → ℝ
  | Number.integerN n => (n : ℝ)
  | Number.rationalN p q => (p : ℝ) / (q : ℝ)
  | Number.imagTimes _ => 0

/-- The product of the powers recorded in a `Mul::from_dict` accumulator. -/
noncomputable def evalDict : List (Number × Number) → ℝ
  | [] => 1
  | (b, e) :: t => evalNum b ^ evalNum e * evalDict t

/-- Real-valued evaluation of a symbolic result. -/
noncomputable def evalR : SymExpr → ℝ
  | SymExpr.numE c => evalNum c
  | SymExpr.mulDict c l => evalNum c * evalDict l
  | SymExpr.mulE a b => evalR a * evalR b

theorem evalNum_from_mpq (n d : Int) :
    evalNum (from_mpq (n, d)) = (n : ℝ) / (d : ℝ) := by
  unfold from_mpq
  by_cases h1 : d = 1
  · rw [if_pos h1, h1]
    show ((n : ℝ)) = (n : ℝ) / ((1 : Int) : ℝ)
    norm_num
  · rw [if_neg h1]
    rfl

theorem evalNum_from_mpq_canonicalize (n d : Int) (hd : d ≠ 0) :
    evalNum (from_mpq (canonicalize (n, d))) = (n : ℝ) / (d : ℝ) := by
  have hcross := canonicalize_cross n d
  have hdp := canonicalize_den_pos n d hd
  have heta : canonicalize (n, d) = ((canonicalize (n, d)).1, (canonicalize (n, d)).2) := rfl
  rw [heta, evalNum_from_mpq]
  rw [div_eq_div_iff (by exact_mod_cast ne_of_gt hdp) (by exact_mod_cast hd)]
  exact_mod_cast hcross

theorem evalNum_powint (b e : Int) (hb : 0 < b) :
    evalNum (powint b e) = (b : ℝ) ^ e := by
  unfold powint
  by_cases he : 0 ≤ e
  · rw [if_pos he]
    show ((b ^ e.toNat : Int) : ℝ) = (b : ℝ) ^ e
    push_cast
    rw [← zpow_natCast ((b : ℝ)) e.toNat]
    congr 1
    omega
  · rw [if_neg he]
    rw [evalNum_from_mpq_canonicalize 1 (b ^ (-e).toNat)
      (pow_ne_zero _ (by omega))]
    push_cast
    rw [one_div, ← zpow_natCast ((b : ℝ)) ((-e).toNat), ← zpow_neg]
    congr 1
    omega

/-- Value of the core of `rpowrat` for a positive integer base: both the
exact-root path and the surd-decomposition fallback evaluate to
`b ^ (en/ed)`. -/
theorem rpowrat_core_value (en ed b : Int) (hb : 0 < b) (hed : 0 < ed) :
    evalR (rpowrat_core en ed b) = ((b : ℝ)) ^ ((en : ℝ) / (ed : ℝ)) := by
  have hbR : (0 : ℝ) < (b : ℝ) := by exact_mod_cast hb
  have hedR : ((ed : ℝ)) ≠ 0 := by exact_mod_cast (by omega : ed ≠ 0)
  have hzn : ed.toNat ≠ 0 := by omega
  have hnotneg : ¬ (b < 0) := by omega
  unfold rpowrat_core
  rw [if_neg hnotneg]
  rcases hroot : intRoot b ed.toNat with _ | res
  · show evalR (rpowrat_fallback en ed b) = _
    unfold rpowrat_fallback
    rw [if_neg (by tauto)]
    show evalNum (powint b (Int.fdiv en ed)) *
        (((b : ℝ)) ^ (evalNum (from_mpq (Int.fmod en ed, ed))) * 1) = _
    rw [evalNum_powint b _ hb, evalNum_from_mpq, mul_one,
      Int.fdiv_eq_ediv en (by omega), Int.fmod_eq_emod en (by omega)]
    rw [← Real.rpow_intCast ((b : ℝ)) (en / ed), ← Real.rpow_add hbR]
    congr 1
    have hdm : en % ed = en - ed * (en / ed) := by
      linarith [Int.ediv_add_emod en ed]
    have hdmR : ((en % ed : Int) : ℝ) = (en : ℝ) - (ed : ℝ) * ((en / ed : Int) : ℝ) := by
      exact_mod_cast congrArg (fun z : Int => (z : ℝ)) hdm
    rw [hdmR]
    field_simp
    ring
  · show evalNum (powint res en) = _
    have hres_pow : res ^ ed.toNat = b := intRoot_sound hroot
    have hres_nonneg : 0 ≤ res := intRoot_nonneg (le_of_lt hb) hroot
    have hres_pos : 0 < res := by
      rcases lt_or_eq_of_le hres_nonneg with h | h
      · exact h
      · exfalso
        rw [← h, zero_pow hzn] at hres_pow
        omega
    have hresR : (0 : ℝ) ≤ ((res : ℝ)) := by exact_mod_cast le_of_lt hres_pos
    rw [evalNum_powint res en hres_pos]
    have hbcast : ((b : ℝ)) = ((res : ℝ)) ^ ed.toNat := by
      rw [← hres_pow]
      push_cast
      ring
    rw [hbcast, ← Real.rpow_natCast ((res : ℝ)) ed.toNat,
      ← Real.rpow_mul hresR]
    have hexp : ((ed.toNat : ℕ) : ℝ) * ((en : ℝ) / (ed : ℝ)) = (en : ℝ) := by
      have : ((ed.toNat : ℕ) : ℝ) = ((ed : Int) : ℝ) := by
        have h1 : ((ed.toNat : ℕ) : Int) = ed := Int.toNat_of_nonneg (by omega)
        exact_mod_cast congrArg (fun z : Int => (z : ℝ)) h1
      rw [this]
      field_simp
    rw [hexp, Real.rpow_intCast]

/-- The decomposition claim C6 states for `powrat`, read literally as a real
value: `self ^ e_num` times `self ^ (1/e_den)` (a multiplicative combination
of the two named factors). -/
noncomputable def powratSpecSplit (sn sd en ed : Int) : ℝ :=
  ((sn : ℝ) / (sd : ℝ)) ^ ((en : ℝ)) *
    ((sn : ℝ) / (sd : ℝ)) ^ ((1 : ℝ) / (ed : ℝ))

/-- Counterexample to claim C6 as stated: for base 1/2 and exponent 3/2 the
code computes `(1/4)·√2 = 2^(-3/2)`, whereas the spec's multiplicative
combination `self^e_num · self^(1/e_den)` equals `(1/8)·(1/2)^(1/2) =
2^(-7/2)`; the two real values differ. -/
theorem C6_powrat_split_counterexample :
    powrat 1 2 3 2 = Except.ok (SymExpr.mulE (SymExpr.numE (Number.integerN 1))
      (SymExpr.mulDict (Number.rationalN 1 4)
        [(Number.integerN 2, Number.rationalN 1 2)])) ∧
    evalR (SymExpr.mulE (SymExpr.numE (Number.integerN 1))
      (SymExpr.mulDict (Number.rationalN 1 4)
        [(Number.integerN 2, Number.rationalN 1 2)])) ≠
      powratSpecSplit 1 2 3 2 := by
  constructor
  · rfl
  · intro heq
    have hL : evalR (SymExpr.mulE (SymExpr.numE (Number.integerN 1))
        (SymExpr.mulDict (Number.rationalN 1 4)
          [(Number.integerN 2, Number.rationalN 1 2)])) =
        (1 : ℝ) / 4 * ((2 : ℝ) ^ ((1 : ℝ) / 2)) := by
      show ((1 : Int) : ℝ) * (((1 : Int) : ℝ) / ((4 : Int) : ℝ) *
        ((((2 : Int) : ℝ)) ^ (((1 : Int) : ℝ) / ((2 : Int) : ℝ)) * 1)) = _
      norm_num
    have hR : powratSpecSplit 1 2 3 2 =
        (1 : ℝ) / 8 * (((1 : ℝ) / 2) ^ ((1 : ℝ) / 2)) := by
      unfold powratSpecSplit
      have h3 : (((3 : Int)) : ℝ) = ((3 : ℕ) : ℝ) := by norm_num
      rw [h3, Real.rpow_natCast]
      norm_num
    have ha : ((2 : ℝ) ^ ((1 : ℝ) / 2)) ^ (2 : ℕ) = 2 := by
      rw [← Real.rpow_natCast ((2 : ℝ) ^ ((1 : ℝ) / 2)) 2,
        ← Real.rpow_mul (by norm_num : (0 : ℝ) ≤ 2)]
      norm_num
    have hc : (((1 : ℝ) / 2) ^ ((1 : ℝ) / 2)) ^ (2 : ℕ) = 1 / 2 := by
      rw [← Real.rpow_natCast (((1 : ℝ) / 2) ^ ((1 : ℝ) / 2)) 2,
        ← Real.rpow_mul (by norm_num : (0 : ℝ) ≤ 1 / 2)]
      norm_num
    rw [hL, hR] at heq
    have h2 : ((1 : ℝ) / 4 * ((2 : ℝ) ^ ((1 : ℝ) / 2))) ^ (2 : ℕ) =
        ((1 : ℝ) / 8 * (((1 : ℝ) / 2) ^ ((1 : ℝ) / 2))) ^ (2 : ℕ) := by
      rw [heq]
    rw [mul_pow, mul_pow, ha, hc] at h2
    norm_num at h2

/-- Claim C6, amended — `powrat(self, e)` multiplies `rpowrat` applied to the
base's numerator with exponent `e` by `rpowrat` applied to the base's
denominator with exponent `-e`; each factor composes the `e_den`-th root with
integer exponentiation by `e_num`, so that for a positive base the real value
of the result is `self ^ (e_num/e_den)` — not
`self^e_num · self^(1/e_den)`. -/
theorem C6_powrat_value (sn sd en ed : Int)
    (hsn : 0 < sn) (hsd : 0 < sd) (hed : 0 < ed) (hfit : ed < 2 ^ 64) :
    powrat sn sd en ed =
      Except.ok (SymExpr.mulE (rpowrat_core en ed sn) (rpowrat_core (-en) ed sd)) ∧
    evalR (SymExpr.mulE (rpowrat_core en ed sn) (rpowrat_core (-en) ed sd)) =
      ((sn : ℝ) / (sd : ℝ)) ^ ((en : ℝ) / (ed : ℝ)) := by
  have hok1 : rpowrat en ed sn = Except.ok (rpowrat_core en ed sn) := by
    unfold rpowrat
    rw [if_pos ⟨by omega, hfit⟩]
  have hok2 : rpowrat (-en) ed sd = Except.ok (rpowrat_core (-en) ed sd) := by
    unfold rpowrat
    rw [if_pos ⟨by omega, hfit⟩]
  constructor
  · unfold powrat
    rw [hok1, hok2]
  · show evalR (rpowrat_core en ed sn) * evalR (rpowrat_core (-en) ed sd) = _
    rw [rpowrat_core_value en ed sn hsn hed, rpowrat_core_value (-en) ed sd hsd hed]
    have hsnR : (0 : ℝ) ≤ ((sn : ℝ)) := by exact_mod_cast le_of_lt hsn
    have hsdR : (0 : ℝ) < ((sd : ℝ)) := by exact_mod_cast hsd
    have hneg : (((-en : Int)) : ℝ) / ((ed : ℝ)) = -((en : ℝ) / (ed : ℝ)) := by
      push_cast
      ring
    rw [hneg, Real.rpow_neg (le_of_lt hsdR), Real.div_rpow hsnR (le_of_lt hsdR)]
    exact (div_eq_mul_inv _ _).symm

/-- Witness for the amended C6 at base 1/2, exponent 3/2. -/
theorem C6_powrat_value_witness :
    ((0 : Int) < 1 ∧ (0 : Int) < 2 ∧ (0 : Int) < 2 ∧ (2 : Int) < 2 ^ 64) ∧
    (powrat 1 2 3 2 =
        Except.ok (SymExpr.mulE (rpowrat_core 3 2 1) (rpowrat_core (-3) 2 2)) ∧
      evalR (SymExpr.mulE (rpowrat_core 3 2 1) (rpowrat_core (-3) 2 2)) =
        (((1 : Int) : ℝ) / ((2 : Int) : ℝ)) ^ (((3 : Int) : ℝ) / ((2 : Int) : ℝ))) :=
  ⟨⟨by decide, by decide, by decide, by decide⟩,
    C6_powrat_value 1 2 3 2 (by decide) (by decide) (by decide) (by decide)⟩

end SE
